import Mathlib

/-!
Shallow embedding of the duplicate_finder program (src/main.go) and proofs of
the specification claims about it.  Pure fragments of the Go code are embedded
as Lean functions; the effectful fragments (file system access, channels,
goroutine scheduling) are embedded as explicit outcome parameters, event
traces and step functions over explicit state.
-/

namespace DupFinder

/-- The `File` struct of main.go: a successfully hashed file record. -/
structure File where
  Path : String
  Hash : String
  Size : Int
  deriving DecidableEq

/-- The `HashError` struct of main.go: a failed hashing attempt.  The Go
`error` cause is embedded as its message string. -/
structure HashError where
  Path : String
  Err : String
  deriving DecidableEq

/-! ## Size formatting (humanReadableSize, main.go lines 53-64)

The Go function converts the byte count to `float64` and repeatedly divides by
1024.  Division of a binary floating point value by 1024 only shifts the
exponent, so as long as the count itself is exactly representable (below
2 to the 53) the running value `newSize` is exactly `size / 1024 ^ unitIndex`.
The embedding carries that rational exactly as the pair
`(numerator, denominator)` with `denominator = 1024 ^ unitIndex`; the `%.2f`
formatting of Go (correctly rounded, ties to even) is embedded as rounding
`numerator * 100 / denominator` half to even. -/

/-- The `units` slice of humanReadableSize. -/
def unitsList : List String := ["B", "KB", "MB", "GB", "TB"]

/-- The scaling loop of humanReadableSize: while `newSize >= 1024` and
`unitIndex < len(units)-1`, divide by 1024 (embedded as multiplying the
denominator by 1024) and bump the unit index.  The loop body can run at most
4 times (the index bound), so fuel 4 is exact. -/
def hrLoop : Nat → Int → Int → Nat → (Int × Int) × Nat
  | 0, num, den, idx => ((num, den), idx)
  | fuel + 1, num, den, idx =>
    if 1024 * den ≤ num ∧ idx < 4 then hrLoop fuel num (den * 1024) (idx + 1)
    else ((num, den), idx)

/-- Rounding of the exact value `num / den` (`den > 0`) to an integer, ties to
even, as Go %.2f rounds. -/
def roundHalfEvenDiv (num den : Int) : Int :=
  let n := Int.fdiv num den
  let r := num - n * den
  if 2 * r < den then n
  else if den < 2 * r then n + 1
  else if Int.emod n 2 = 0 then n else n + 1

/-- Fixed two-decimal rendering of the exact value `num / den`, as Go
`%.2f`. -/
def format2 (num den : Int) : String :=
  let h := roundHalfEvenDiv (num * 100) den
  let whole := Int.fdiv h 100
  let frac := (h - whole * 100).toNat
  toString whole ++ "." ++ (if frac < 10 then "0" ++ toString frac else toString frac)

/-- humanReadableSize (main.go lines 53-64): scale by 1024 through the units
and print with two decimals. -/
def humanReadableSize (size : Int) : String :=
  let p := hrLoop 4 size 1 0
  format2 p.1.1 p.1.2 ++ " " ++ unitsList.getD p.2 ""

/-! ## The hasher (calculateHash, main.go lines 27-47)

The file system is embedded as the outcome the system calls in the function
body produce, in the order the body performs them: `os.Open` may fail,
`io.Copy` may fail, and `file.Stat` may fail after a successful read.  The
MD5 digest is an abstract deterministic function of the byte content, passed
as a parameter.  The result is the list of messages the invocation sends on
`hashCh` and `errCh`; `none` marks the run that ends in a runtime panic
instead of a message (the Go code discards the `Stat` error with
`stat, _ := file.Stat()` and then calls `stat.Size()` on the nil interface
value). -/

/-- Outcome of the file system calls performed by one calculateHash run. -/
inductive HashOutcome where
  /-- `os.Open` fails with the given cause. -/
  | openErr (e : String)
  /-- `os.Open` succeeds, `io.Copy` fails with the given cause. -/
  | readErr (e : String)
  /-- open and read succeed on the given content, `file.Stat` fails. -/
  | statErr (content : List Nat)
  /-- open and read succeed on the given content, `file.Stat` reports the
  given size. -/
  | ok (content : List Nat) (statSize : Int)
  deriving DecidableEq

/-- A message sent on `hashCh` or `errCh`. -/
inductive HashMsg where
  | record (f : File)
  | failure (e : HashError)
  deriving DecidableEq

/-- calculateHash (main.go lines 27-47): the messages one invocation emits,
or `none` when the invocation panics on the discarded Stat error. -/
def calculateHash (md5 : List Nat → String) (filePath : String)
    (io : HashOutcome) : Option (List HashMsg) :=
  match io with
  | .openErr e => some [HashMsg.failure ⟨filePath, e⟩]
  | .readErr e => some [HashMsg.failure ⟨filePath, e⟩]
  | .statErr _ => none
  | .ok content statSize =>
      some [HashMsg.record ⟨filePath, md5 content, statSize⟩]

/-! ## Walk and dispatch (main.go lines 195-209)

`filepath.Walk` presents the callback a pre-order sequence of entries; each
entry carries the path, the kind of the entry (from the lstat information)
and an optional walk error for that entry.  The repository callback returns
the error unchanged when one is passed (which makes `filepath.Walk` stop and
return it, and `main` then calls `log.Fatal`), and otherwise dispatches one
hashing task and increments `fileCount` exactly when `info.IsDir()` is
false. -/

/-- The lstat kind of a visited entry. -/
inductive FileKind where
  | regular
  | directory
  | symlink
  | other
  deriving DecidableEq

/-- One entry as presented to the walk callback. -/
structure WalkEntry where
  path : String
  kind : FileKind
  err : Option String
  deriving DecidableEq

/-- The walk loop with the repository callback (main.go lines 195-205):
accumulates the dispatched paths and the `fileCount` counter, aborting with
the callback error as `filepath.Walk` does. -/
def runWalk : List WalkEntry → List String → Nat → Except String (List String × Nat)
  | [], ds, n => .ok (ds, n)
  | e :: es, ds, n =>
    match e.err with
    | some msg => .error msg
    | none =>
        if e.kind = FileKind.directory then runWalk es ds n
        else runWalk es (ds ++ [e.path]) (n + 1)

/-- The paths the walk dispatches: every visited entry that is not a
directory. -/
def dispatchSpec (vs : List WalkEntry) : List String :=
  vs.filterMap (fun e => if e.kind = FileKind.directory then none else some e.path)

/-! ## The result aggregator (main.go lines 219-241)

The select loop is embedded as a step function over the events the two
channels can deliver: a value received from `hashCh`, a value received from
`errCh`, and the closure of either channel (after which the Go code sets the
channel variable to nil, embedded as clearing the corresponding open flag).
A schedule of the loop is a list of such events; the loop exits exactly when
the break condition `hashCh == nil && errCh == nil` holds after a step. -/

/-- An event observed by one iteration of the select loop. -/
inductive AggEvent where
  | recvFile (f : File)
  | recvErr (e : HashError)
  | closeHash
  | closeErr
  deriving DecidableEq

/-- The aggregator state: the two channel variables (open or nil), the
`fileMap`, the running counters, and the failures reported so far. -/
structure AggState where
  hashOpen : Bool
  errOpen : Bool
  fileMap : List (String × List File)
  scannedCount : Nat
  totalSize : Int
  failures : List HashError
  deriving DecidableEq

/-- `fileMap[file.Hash] = append(fileMap[file.Hash], file)` on an association
list keyed by digest. -/
def addRecord (m : List (String × List File)) (f : File) : List (String × List File) :=
  match m with
  | [] => [(f.Hash, [f])]
  | (d, g) :: rest =>
      if d = f.Hash then (d, g ++ [f]) :: rest else (d, g) :: addRecord rest f

/-- Lookup of a digest group in the map, the empty group when absent. -/
def lookupGroup (m : List (String × List File)) (d : String) : List File :=
  match m with
  | [] => []
  | (d0, g) :: rest => if d0 = d then g else lookupGroup rest d

/-- One iteration body of the select loop (main.go lines 220-236). -/
def aggStep (s : AggState) (e : AggEvent) : AggState :=
  match e with
  | .recvFile f =>
      { s with fileMap := addRecord s.fileMap f,
               scannedCount := s.scannedCount + 1,
               totalSize := s.totalSize + f.Size }
  | .recvErr e => { s with failures := s.failures ++ [e] }
  | .closeHash => { s with hashOpen := false }
  | .closeErr => { s with errOpen := false }

/-- The select loop (main.go lines 219-241) run over a schedule of events:
returns the state reached and whether the loop exited through its break
(both channels nil).  An exhausted schedule with the loop still running is
reported as `false` (in Go the loop would block waiting for a further
event). -/
def aggRun (s : AggState) : List AggEvent → AggState × Bool
  | [] => (s, false)
  | e :: es =>
      let s1 := aggStep s e
      if !s1.hashOpen && !s1.errOpen then (s1, true) else aggRun s1 es

/-- The aggregator state when the loop is entered. -/
def initAgg : AggState := ⟨true, true, [], 0, 0, []⟩

/-- Count of records delivered on the success stream in a schedule. -/
def countFileEvents (l : List AggEvent) : Nat :=
  l.countP (fun e => match e with | .recvFile _ => true | _ => false)

/-- Count of failures delivered on the error stream in a schedule. -/
def countErrEvents (l : List AggEvent) : Nat :=
  l.countP (fun e => match e with | .recvErr _ => true | _ => false)

/-- The map built from a list of records in arrival order, as the select
loop builds `fileMap` (main.go line 225). -/
def buildMap (records : List File) : List (String × List File) :=
  records.foldl addRecord []

/-- The record calculateHash emits for a file that opens, reads and stats
successfully, with the stat size equal to the content length. -/
def mkRecord (md5 : List Nat → String) (pc : String × List Nat) : File :=
  ⟨pc.1, md5 pc.2, (pc.2.length : Int)⟩

/-! ## Duplicate action handlers (moveFiles, copyFile, deleteFiles)

The effect of a run is embedded as the list of file system mutations it
performs, in order.  The environment supplies the outcome of each inspection
or fallible call: `os.Stat` on the source, `os.Stat` on the destination
directory, the `os.SameFile` comparison, and whether `copyFile`
succeeds. -/

/-- Outcomes of the file system inspections moveFiles performs. -/
structure MoveEnv where
  statSrcOk : String → Bool
  statDestOk : Bool
  sameFile : String → Bool
  copyOk : String → Bool

/-- A mutating file system call made by moveFiles or deleteFiles. -/
inductive FsAction where
  | rename (src dest : String)
  | copy (src dest : String)
  | remove (path : String)
  deriving DecidableEq

/-- filepath.Base: the last path component (the characters after the last
slash). -/
def baseName (p : String) : String :=
  String.mk ((p.data.reverse.takeWhile (fun c => c ≠ '/')).reverse)

/-- strings.ToLower on the ASCII range, as used for the confirmation
answers. -/
def toLowerStr (s : String) : String := String.mk (s.data.map Char.toLower)

/-- filepath.Join of a directory and a name. -/
def pathJoin (dir name : String) : String := dir ++ "/" ++ name

/-- The body of the inner moveFiles loop (main.go lines 94-130) for one
non-original member: the mutations attempted for that member.  A failed stat
skips the member; `os.SameFile` selects rename versus copy-then-delete; a
failed copy skips the source deletion. -/
def memberMove (env : MoveEnv) (destination src : String) : List FsAction :=
  let dest := pathJoin destination (baseName src)
  if env.statSrcOk src = false then []
  else if env.statDestOk = false then []
  else if env.sameFile src then [FsAction.rename src dest]
  else if env.copyOk src then [FsAction.copy src dest, FsAction.remove src]
  else [FsAction.copy src dest]

/-- The inner moveFiles loop over the non-original members of one group. -/
def moveMembers (env : MoveEnv) (destination : String) : List String → List FsAction
  | [] => []
  | s :: rest => memberMove env destination s ++ moveMembers env destination rest

/-- One group in the outer moveFiles loop: only groups with more than one
member are touched, and the loop starts at index 1. -/
def moveGroup (env : MoveEnv) (destination : String) (files : List File) : List FsAction :=
  if files.length > 1 then moveMembers env destination ((files.drop 1).map (fun f => f.Path))
  else []

/-- The outer moveFiles loop over the map. -/
def moveGroups (env : MoveEnv) (destination : String) :
    List (String × List File) → List FsAction
  | [] => []
  | g :: rest => moveGroup env destination g.2 ++ moveGroups env destination rest

/-- moveFiles (main.go lines 78-133): the confirmation read from stdin is
lower-cased and compared against "yes"; on any other answer the function
returns before touching any file. -/
def moveFiles (env : MoveEnv) (confirmation destination : String)
    (fileMap : List (String × List File)) : List FsAction :=
  if toLowerStr confirmation ≠ "yes" then [] else moveGroups env destination fileMap

/-- The inner deleteFiles loop over one group (main.go lines 166-177). -/
def deleteGroup (files : List File) : List FsAction :=
  if files.length > 1 then (files.drop 1).map (fun f => FsAction.remove f.Path)
  else []

/-- The outer deleteFiles loop over the map. -/
def deleteGroups : List (String × List File) → List FsAction
  | [] => []
  | g :: rest => deleteGroup g.2 ++ deleteGroups rest

/-- deleteFiles (main.go lines 156-179): confirmation as in moveFiles, then
removal of every non-original member of every group with more than one
member. -/
def deleteFiles (confirmation : String)
    (fileMap : List (String × List File)) : List FsAction :=
  if toLowerStr confirmation ≠ "yes" then [] else deleteGroups fileMap

/-- The path an action mutates: the source of a rename or copy, the path of a
removal. -/
def actionSource : FsAction → String
  | .rename s _ => s
  | .copy s _ => s
  | .remove p => p

/-- All member paths of the map. -/
def allPaths (fileMap : List (String × List File)) : List String :=
  fileMap.flatMap (fun g => g.2.map (fun f => f.Path))

/-- The index-0 (original) path of every nonempty group. -/
def originalPaths (fileMap : List (String × List File)) : List String :=
  fileMap.filterMap (fun g => g.2.head?.map (fun f => f.Path))

/-- The paths at indices 1 and beyond of every group with more than one
member: the only paths the action handlers may touch. -/
def nonOriginalPaths (fileMap : List (String × List File)) : List String :=
  fileMap.flatMap
    (fun g => if g.2.length > 1 then (g.2.drop 1).map (fun f => f.Path) else [])

/-! ## The worker pool governor (main.go lines 27-31 and 191)

`goroutineCh` is a buffered channel of capacity `C = runtime.NumCPU()`.  A
hashing task sends one token into it before opening the file (blocking while
the buffer is full) and receives one token back, through a defer, on every
exit path.  Each task is embedded as its sequence of atomic actions; a
schedule picks which task steps next, and a step whose action is blocked (a
send on a full buffer) or whose index is out of range leaves the state
unchanged, so the states reachable under some schedule are exactly the
results of `sysRun` over arbitrary index lists. -/

/-- The atomic actions of one calculateHash task, in program order. -/
inductive TaskAction where
  | acquire
  | openF
  | hashF
  | emit
  | release
  deriving DecidableEq

/-- The action sequence of one task: `fails = true` is the error path (open
or read fails, the failure is emitted, the deferred release runs), `fails =
false` the success path. -/
def taskProg : Bool → List TaskAction
  | true => [TaskAction.acquire, TaskAction.openF, TaskAction.emit, TaskAction.release]
  | false => [TaskAction.acquire, TaskAction.openF, TaskAction.hashF,
              TaskAction.emit, TaskAction.release]

/-- The scheduler state: the remaining program of every task and the number
of tokens in `goroutineCh`. -/
structure SysState where
  tasks : List (List TaskAction)
  slots : Nat
  deriving DecidableEq

/-- A task is mid-flight when it has acquired its slot and not yet released
it: its acquire is consumed and its release still pending. -/
def inFlightTask (rem : List TaskAction) : Bool :=
  decide (TaskAction.acquire ∉ rem) && decide (TaskAction.release ∈ rem)

/-- The number of hashing operations mid-flight. -/
def inFlight (tasks : List (List TaskAction)) : Nat := tasks.countP inFlightTask

/-- One scheduler step: task `i` performs its next action.  An acquire on a
full buffer blocks (no state change); a release frees one slot. -/
def sysStep (C : Nat) (s : SysState) (i : Nat) : SysState :=
  match s.tasks[i]? with
  | some (TaskAction.acquire :: rest) =>
      if s.slots < C then ⟨s.tasks.set i rest, s.slots + 1⟩ else s
  | some (TaskAction.release :: rest) => ⟨s.tasks.set i rest, s.slots - 1⟩
  | some (_ :: rest) => ⟨s.tasks.set i rest, s.slots⟩
  | some [] => s
  | none => s

/-- A schedule run from a state. -/
def sysRun (C : Nat) (s : SysState) (sched : List Nat) : SysState :=
  sched.foldl (sysStep C) s

/-- The initial state: one dispatched task per discovered file, no slot
taken. -/
def initSys (failures : List Bool) : SysState := ⟨failures.map taskProg, 0⟩

/-- The scheduler invariant: the token count equals the number of mid-flight
tasks, never exceeds the capacity, and every remaining program is a suffix of
one of the two task programs. -/
def SysInv (C : Nat) (s : SysState) : Prop :=
  s.slots = inFlight s.tasks ∧ s.slots ≤ C ∧
    ∀ rem ∈ s.tasks, rem ∈ (taskProg true).tails ∨ rem ∈ (taskProg false).tails

/-- A concrete injective-on-small-inputs digest used to instantiate the
abstract MD5 parameter in witnesses. -/
def digestW (c : List Nat) : String :=
  String.join (c.map (fun n => Nat.repr n ++ ","))

/-- A concrete input set used in witnesses: two files with equal content, one
with different content. -/
def filesW : List (String × List Nat) := [("a", [1]), ("b", [1]), ("c", [2])]

/-- A concrete move environment used in witnesses: stats succeed, the
SameFile test is negative, the copy fails. -/
def envCopyFailW : MoveEnv := ⟨fun _ => true, true, fun _ => false, fun _ => false⟩

/-- A concrete duplicate map used in witnesses: one group of three members,
one singleton group. -/
def mapW : List (String × List File) :=
  [("h1", [⟨"a", "h1", 1⟩, ⟨"b", "h1", 1⟩, ⟨"c", "h1", 1⟩]), ("h2", [⟨"d", "h2", 2⟩])]

/-! # Helper lemmas -/

theorem hrLoop_inv (fuel : Nat) :
    ∀ (num den : Int) (idx : Nat), idx + fuel = 4 → 0 < den →
      (hrLoop fuel num den idx).1.1 = num ∧
      ∃ k, (hrLoop fuel num den idx).2 = idx + k ∧
        (hrLoop fuel num den idx).1.2 = den * 1024 ^ k ∧
        (hrLoop fuel num den idx).2 ≤ 4 ∧
        (num < 1024 * (hrLoop fuel num den idx).1.2 ∨ (hrLoop fuel num den idx).2 = 4) ∧
        (k = 0 ∨ den * 1024 ^ k ≤ num) := by
  induction fuel with
  | zero =>
    intro num den idx h4 hden
    refine ⟨rfl, 0, by simp [hrLoop], by simp [hrLoop], by simp [hrLoop]; omega, ?_, Or.inl rfl⟩
    simp [hrLoop]
    omega
  | succ fuel ih =>
    intro num den idx h4 hden
    rw [hrLoop]
    by_cases hc : 1024 * den ≤ num ∧ idx < 4
    · rw [if_pos hc]
      obtain ⟨hnum, k, hidx, hd, hle, hterm, hent⟩ :=
        ih num (den * 1024) (idx + 1) (by omega) (by positivity)
      refine ⟨hnum, k + 1, by omega, ?_, hle, hterm, Or.inr ?_⟩
      · rw [hd]; ring
      · rcases hent with rfl | hent
        · simpa [mul_comm] using hc.1
        · calc den * 1024 ^ (k + 1) = den * 1024 * 1024 ^ k := by ring
            _ ≤ num := hent
    · rw [if_neg hc]
      refine ⟨rfl, 0, by omega, by simp, by omega, Or.inl ?_, Or.inl rfl⟩
      have hx : ¬ 1024 * den ≤ num := by
        intro hx
        exact hc ⟨hx, by omega⟩
      show num < 1024 * den
      omega

theorem runWalk_ok_spec :
    ∀ (vs : List WalkEntry) (ds0 : List String) (n0 : Nat) (ds : List String) (n : Nat),
      runWalk vs ds0 n0 = .ok (ds, n) →
      ds = ds0 ++ dispatchSpec vs ∧ n = n0 + (dispatchSpec vs).length ∧
        ∀ e ∈ vs, e.err = none := by
  intro vs
  induction vs with
  | nil =>
    intro ds0 n0 ds n h
    simp only [runWalk, Except.ok.injEq, Prod.mk.injEq] at h
    simp [dispatchSpec, h.1.symm, h.2.symm]
  | cons e es ih =>
    intro ds0 n0 ds n h
    rw [runWalk] at h
    cases herr : e.err with
    | some msg => rw [herr] at h; exact absurd h (by simp)
    | none =>
      rw [herr] at h
      by_cases hdir : e.kind = FileKind.directory
      · rw [if_pos hdir] at h
        obtain ⟨h1, h2, h3⟩ := ih ds0 n0 ds n h
        refine ⟨?_, ?_, ?_⟩
        · simpa [dispatchSpec, hdir] using h1
        · simpa [dispatchSpec, hdir] using h2
        · intro x hx
          rcases List.mem_cons.1 hx with rfl | hx
          · exact herr
          · exact h3 x hx
      · rw [if_neg hdir] at h
        obtain ⟨h1, h2, h3⟩ := ih (ds0 ++ [e.path]) (n0 + 1) ds n h
        refine ⟨?_, ?_, ?_⟩
        · simpa [dispatchSpec, hdir, List.append_assoc] using h1
        · have hds : dispatchSpec (e :: es) = e.path :: dispatchSpec es := by
            simp [dispatchSpec, hdir]
          rw [hds, List.length_cons]
          omega
        · intro x hx
          rcases List.mem_cons.1 hx with rfl | hx
          · exact herr
          · exact h3 x hx

theorem runWalk_error_iff :
    ∀ (vs : List WalkEntry) (ds0 : List String) (n0 : Nat),
      (∃ msg, runWalk vs ds0 n0 = .error msg) ↔ ∃ e ∈ vs, e.err ≠ none := by
  intro vs
  induction vs with
  | nil =>
    intro ds0 n0
    simp [runWalk]
  | cons e es ih =>
    intro ds0 n0
    rw [runWalk]
    cases herr : e.err with
    | some msg =>
      simp only [herr]
      constructor
      · intro _
        exact ⟨e, List.mem_cons_self e es, by simp [herr]⟩
      · intro _
        exact ⟨msg, rfl⟩
    | none =>
      constructor
      · intro hmsg
        by_cases hdir : e.kind = FileKind.directory
        · rw [if_pos hdir] at hmsg
          obtain ⟨x, hx, hne⟩ := (ih ds0 n0).1 hmsg
          exact ⟨x, List.mem_cons_of_mem e hx, hne⟩
        · rw [if_neg hdir] at hmsg
          obtain ⟨x, hx, hne⟩ := (ih (ds0 ++ [e.path]) (n0 + 1)).1 hmsg
          exact ⟨x, List.mem_cons_of_mem e hx, hne⟩
      · intro hx
        obtain ⟨x, hx, hne⟩ := hx
        rcases List.mem_cons.1 hx with rfl | hx
        · exact absurd herr hne
        · by_cases hdir : e.kind = FileKind.directory
          · rw [if_pos hdir]
            exact (ih ds0 n0).2 ⟨x, hx, hne⟩
          · rw [if_neg hdir]
            exact (ih (ds0 ++ [e.path]) (n0 + 1)).2 ⟨x, hx, hne⟩

/-! # Claim theorems -/

/-- C9: humanReadableSize scales its byte count by 1024 through the units
B, KB, MB, GB, TB with two decimal places: the three stated examples hold,
and for every size the loop leaves the exact value size divided by 1024 to
the unit index, the unit index is at most 4, the mantissa is below 1024
unless the unit is TB, a nonzero unit index means the size reaches that
unit, and the output is the two-decimal rendering followed by the selected
unit. -/
theorem humanReadableSize_spec :
    humanReadableSize 1024 = "1.00 KB" ∧
    humanReadableSize 1048576 = "1.00 MB" ∧
    humanReadableSize 0 = "0.00 B" ∧
    ∀ size : Int,
      (hrLoop 4 size 1 0).1.1 = size ∧
      (hrLoop 4 size 1 0).1.2 = 1024 ^ (hrLoop 4 size 1 0).2 ∧
      (hrLoop 4 size 1 0).2 ≤ 4 ∧
      (size < 1024 * 1024 ^ (hrLoop 4 size 1 0).2 ∨ (hrLoop 4 size 1 0).2 = 4) ∧
      ((hrLoop 4 size 1 0).2 = 0 ∨ 1024 ^ (hrLoop 4 size 1 0).2 ≤ size) ∧
      humanReadableSize size =
        format2 size (1024 ^ (hrLoop 4 size 1 0).2) ++ " " ++
          unitsList.getD (hrLoop 4 size 1 0).2 "" := by
  refine ⟨by decide, by decide, by decide, ?_⟩
  intro size
  obtain ⟨hnum, k, hidx, hden, hle, hterm, hent⟩ := hrLoop_inv 4 size 1 0 rfl one_pos
  have hk : (hrLoop 4 size 1 0).2 = k := by omega
  have hden2 : (hrLoop 4 size 1 0).1.2 = 1024 ^ (hrLoop 4 size 1 0).2 := by
    rw [hden, hk]; ring
  refine ⟨hnum, hden2, hle, ?_, ?_, ?_⟩
  · rcases hterm with h | h
    · exact Or.inl (by rw [← hden2]; exact hnum ▸ h)
    · exact Or.inr h
  · rcases hent with h | h
    · exact Or.inl (by omega)
    · refine Or.inr ?_
      rw [hk, ← one_mul (1024 ^ k)]
      exact hnum ▸ h
  · rw [humanReadableSize, ← hden2, hnum]

/-- C10: a confirmation answer other than yes (after lower-casing, as the
code compares) makes moveFiles and deleteFiles perform no rename, copy or
removal at all. -/
theorem unconfirmed_is_noop :
    ∀ (env : MoveEnv) (confirmation destination : String)
      (fileMap : List (String × List File)),
      toLowerStr confirmation ≠ "yes" →
      moveFiles env confirmation destination fileMap = [] ∧
      deleteFiles confirmation fileMap = [] := by
  intro env conf dest m h
  exact ⟨by simp [moveFiles, h], by simp [deleteFiles, h]⟩

theorem unconfirmed_is_noop_witness :
    toLowerStr "NO" ≠ "yes" ∧
    (moveFiles envCopyFailW "NO" "dest" mapW = [] ∧ deleteFiles "NO" mapW = []) :=
  ⟨by decide, unconfirmed_is_noop envCopyFailW "NO" "dest" mapW (by decide)⟩

/-- C3 (evaluation of the code on each outcome): an open failure or a read
failure emits exactly the one TaskFailure carrying the path and cause, a
fully successful run emits exactly the one FileRecord, but when the Stat
call fails after a successful read the invocation emits no message at all:
the discarded Stat error leaves a nil FileInfo whose Size call panics. -/
theorem calculateHash_emissions :
    ∀ (md5 : List Nat → String) (p e : String) (content : List Nat) (statSize : Int),
      calculateHash md5 p (HashOutcome.openErr e) = some [HashMsg.failure ⟨p, e⟩] ∧
      calculateHash md5 p (HashOutcome.readErr e) = some [HashMsg.failure ⟨p, e⟩] ∧
      calculateHash md5 p (HashOutcome.ok content statSize) =
        some [HashMsg.record ⟨p, md5 content, statSize⟩] ∧
      calculateHash md5 p (HashOutcome.statErr content) = none :=
  fun _ _ _ _ _ => ⟨rfl, rfl, rfl, rfl⟩

/-- C8: on the cross-volume path a failed copy leaves exactly the attempted
copy for that member, never the source removal, and the processing of the
remaining members and of the remaining groups is the unchanged continuation
of the loop. -/
theorem copy_failure_preserves_source :
    ∀ (env : MoveEnv) (destination src : String),
      env.statSrcOk src = true → env.statDestOk = true →
      env.sameFile src = false → env.copyOk src = false →
      memberMove env destination src =
        [FsAction.copy src (pathJoin destination (baseName src))] ∧
      FsAction.remove src ∉ memberMove env destination src ∧
      (∀ rest, moveMembers env destination (src :: rest) =
        memberMove env destination src ++ moveMembers env destination rest) ∧
      (∀ (g : String × List File) (more : List (String × List File)),
        moveGroups env destination (g :: more) =
          moveGroup env destination g.2 ++ moveGroups env destination more) := by
  intro env dest src h1 h2 h3 h4
  have hm : memberMove env dest src =
      [FsAction.copy src (pathJoin dest (baseName src))] := by
    simp [memberMove, h1, h2, h3, h4]
  exact ⟨hm, by simp [hm], fun rest => rfl, fun g more => rfl⟩

theorem copy_failure_preserves_source_witness :
    memberMove envCopyFailW "d" "e/x" =
      [FsAction.copy "e/x" (pathJoin "d" (baseName "e/x"))] ∧
    FsAction.remove "e/x" ∉ memberMove envCopyFailW "d" "e/x" := by
  have h := copy_failure_preserves_source envCopyFailW "d" "e/x" rfl rfl rfl rfl
  exact ⟨h.1, h.2.1⟩

/-- C5 counterexample: the walk visits an accessible root (its entry carries
no error) but a walk error on a descendant entry still aborts the whole scan
fatally, so it is not only failures of the root that abort. -/
theorem walk_nonroot_error_aborts :
    runWalk
      [⟨"root", FileKind.directory, none⟩,
       ⟨"root/sub", FileKind.directory, some "permission denied"⟩,
       ⟨"root/a", FileKind.regular, none⟩] [] 0 = .error "permission denied" ∧
    (⟨"root", FileKind.directory, none⟩ : WalkEntry).err = none :=
  ⟨rfl, rfl⟩

/-- C5 amended: the scan aborts fatally exactly when the walk reports an
error for some visited entry, whether that entry is the root or a
descendant; a file that walks cleanly but fails to open at hashing time
surfaces as a TaskFailure from the hasher, not as a walk abort. -/
theorem walk_abort_characterization :
    ∀ (vs : List WalkEntry),
      ((∃ msg, runWalk vs [] 0 = .error msg) ↔ ∃ e ∈ vs, e.err ≠ none) ∧
      ∀ (md5 : List Nat → String) (p cause : String),
        calculateHash md5 p (HashOutcome.openErr cause) =
          some [HashMsg.failure ⟨p, cause⟩] :=
  fun vs => ⟨runWalk_error_iff vs [] 0, fun _ _ _ => rfl⟩

theorem walk_abort_characterization_witness :
    ∃ msg, runWalk
      [⟨"r", FileKind.directory, none⟩, ⟨"r/sub", FileKind.other, some "EIO"⟩]
      [] 0 = .error msg :=
  ((walk_abort_characterization
      [⟨"r", FileKind.directory, none⟩, ⟨"r/sub", FileKind.other, some "EIO"⟩]).1).mpr
    ⟨⟨"r/sub", FileKind.other, some "EIO"⟩, by decide, by decide⟩

/-- C6 counterexample: a symlink entry is not a regular file, yet the walk
callback (which only tests IsDir) dispatches a hashing task for it and
counts it. -/
theorem symlink_dispatched :
    runWalk [⟨"r", FileKind.directory, none⟩, ⟨"r/link", FileKind.symlink, none⟩]
      [] 0 = .ok (["r/link"], 1) := rfl

/-- C6 amended: on a walk that completes, exactly one hashing task is
dispatched and one counter increment made for every visited entry that is
not a directory (regular files, symlinks and other non-directory entries
alike), directories are skipped, and the counter equals the number of
dispatched paths. -/
theorem dispatch_iff_nondirectory :
    ∀ (vs : List WalkEntry) (ds : List String) (n : Nat),
      runWalk vs [] 0 = .ok (ds, n) →
      ds = dispatchSpec vs ∧ n = ds.length ∧ ∀ e ∈ vs, e.err = none := by
  intro vs ds n h
  obtain ⟨h1, h2, h3⟩ := runWalk_ok_spec vs [] 0 ds n h
  refine ⟨by simpa using h1, ?_, h3⟩
  rw [h1]
  simpa using h2

theorem dispatch_iff_nondirectory_witness :
    runWalk
      [⟨"r", FileKind.directory, none⟩, ⟨"r/a", FileKind.regular, none⟩,
       ⟨"r/ln", FileKind.symlink, none⟩] [] 0 = .ok (["r/a", "r/ln"], 2) ∧
    (["r/a", "r/ln"] = dispatchSpec
        [⟨"r", FileKind.directory, none⟩, ⟨"r/a", FileKind.regular, none⟩,
         ⟨"r/ln", FileKind.symlink, none⟩] ∧
      2 = (["r/a", "r/ln"] : List String).length ∧
      ∀ e ∈ ([⟨"r", FileKind.directory, none⟩, ⟨"r/a", FileKind.regular, none⟩,
              ⟨"r/ln", FileKind.symlink, none⟩] : List WalkEntry), e.err = none) :=
  ⟨rfl, dispatch_iff_nondirectory _ _ _ rfl⟩

/-- Appending a record touches exactly the group of its digest. -/
theorem lookupGroup_addRecord (m : List (String × List File)) (f : File) (d : String) :
    lookupGroup (addRecord m f) d =
      if f.Hash = d then lookupGroup m d ++ [f] else lookupGroup m d := by
  induction m with
  | nil =>
    by_cases h : f.Hash = d <;> simp [addRecord, lookupGroup, h]
  | cons hd tl ih =>
    obtain ⟨d0, g⟩ := hd
    by_cases h1 : d0 = f.Hash
    · subst h1
      by_cases h2 : f.Hash = d <;> simp [addRecord, lookupGroup, h2]
    · by_cases h2 : d0 = d
      · subst h2
        have hne : ¬ f.Hash = d0 := fun hx => h1 hx.symm
        simp [addRecord, lookupGroup, h1, hne]
      · simp [addRecord, lookupGroup, h1, h2, ih]

/-- The group of a digest after folding the arrival list is the arrival-order
list of the records carrying that digest. -/
theorem lookupGroup_foldl :
    ∀ (records : List File) (m : List (String × List File)) (d : String),
      lookupGroup (records.foldl addRecord m) d =
        lookupGroup m d ++ records.filter (fun r => decide (r.Hash = d)) := by
  intro records
  induction records with
  | nil => intro m d; simp
  | cons r rs ih =>
    intro m d
    rw [List.foldl_cons, ih, lookupGroup_addRecord]
    by_cases h : r.Hash = d <;> simp [h]

/-- The group of a digest in the finished map. -/
theorem lookupGroup_buildMap (records : List File) (d : String) :
    lookupGroup (buildMap records) d = records.filter (fun r => decide (r.Hash = d)) := by
  rw [buildMap, lookupGroup_foldl]
  simp [lookupGroup]

/-- C4: for inputs that all hash successfully, the hasher emits one record
per file, byte-identical contents land in the same group keyed by their
common digest, differing contents have different digests and never share a
group (given the digest is collision-free on the inputs), and each group
size equals the number of input files with exactly that content. -/
theorem duplicate_grouping :
    ∀ (md5 : List Nat → String) (files : List (String × List Nat)),
      (∀ a ∈ files, ∀ b ∈ files, md5 a.2 = md5 b.2 → a.2 = b.2) →
      (∀ pc ∈ files, calculateHash md5 pc.1 (HashOutcome.ok pc.2 pc.2.length) =
        some [HashMsg.record (mkRecord md5 pc)]) ∧
      (∀ a ∈ files, ∀ b ∈ files, a.2 = b.2 →
        mkRecord md5 a ∈ lookupGroup (buildMap (files.map (mkRecord md5))) (md5 a.2) ∧
        mkRecord md5 b ∈ lookupGroup (buildMap (files.map (mkRecord md5))) (md5 a.2)) ∧
      (∀ a ∈ files, ∀ b ∈ files, a.2 ≠ b.2 →
        md5 a.2 ≠ md5 b.2 ∧
        mkRecord md5 b ∉ lookupGroup (buildMap (files.map (mkRecord md5))) (md5 a.2)) ∧
      (∀ a ∈ files,
        (lookupGroup (buildMap (files.map (mkRecord md5))) (md5 a.2)).length =
          (files.filter (fun b => decide (b.2 = a.2))).length) := by
  intro md5 files hnc
  refine ⟨fun pc _ => rfl, ?_, ?_, ?_⟩
  · intro a ha b hb hab
    rw [lookupGroup_buildMap]
    constructor
    · exact List.mem_filter.2 ⟨List.mem_map_of_mem _ ha, by simp [mkRecord]⟩
    · exact List.mem_filter.2 ⟨List.mem_map_of_mem _ hb, by simp [mkRecord, hab]⟩
  · intro a ha b hb hab
    have hne : md5 a.2 ≠ md5 b.2 := fun hx => hab (hnc a ha b hb hx)
    refine ⟨hne, ?_⟩
    rw [lookupGroup_buildMap]
    intro hmem
    have := (List.mem_filter.1 hmem).2
    simp only [mkRecord, decide_eq_true_eq] at this
    exact hne this.symm
  · intro a ha
    rw [lookupGroup_buildMap, List.filter_map, List.length_map]
    apply congrArg List.length
    apply List.filter_congr
    intro x hx
    simp only [Function.comp_apply, mkRecord, decide_eq_true_eq]
    apply decide_eq_decide.2
    constructor
    · intro hmd5
      exact hnc x hx a ha hmd5
    · intro hc
      exact congrArg md5 hc

theorem duplicate_grouping_witness :
    (∀ a ∈ filesW, ∀ b ∈ filesW, digestW a.2 = digestW b.2 → a.2 = b.2) ∧
    (lookupGroup (buildMap (filesW.map (mkRecord digestW))) (digestW [1])).length =
      (filesW.filter (fun b => decide (b.2 = [1]))).length :=
  ⟨by decide, (duplicate_grouping digestW filesW (by decide)).2.2.2 ("a", [1])
    (by decide)⟩

/-- Every action of the per-member move body mutates its source path. -/
theorem memberMove_source (env : MoveEnv) (dest src : String) :
    ∀ a ∈ memberMove env dest src, actionSource a = src := by
  intro a ha
  simp only [memberMove] at ha
  split at ha
  · simp at ha
  · split at ha
    · simp at ha
    · split at ha
      · simp only [List.mem_singleton] at ha
        subst ha; rfl
      · split at ha
        · rcases List.mem_cons.1 ha with rfl | ha
          · rfl
          · simp only [List.mem_singleton] at ha
            subst ha; rfl
        · simp only [List.mem_singleton] at ha
          subst ha; rfl

/-- Every action of the inner move loop mutates one of the listed paths. -/
theorem moveMembers_source (env : MoveEnv) (dest : String) :
    ∀ (srcs : List String) (a : FsAction),
      a ∈ moveMembers env dest srcs → actionSource a ∈ srcs := by
  intro srcs
  induction srcs with
  | nil => intro a ha; simp [moveMembers] at ha
  | cons s rest ih =>
    intro a ha
    rw [moveMembers] at ha
    rcases List.mem_append.1 ha with hm | hr
    · rw [memberMove_source env dest s a hm]
      exact List.mem_cons_self s rest
    · exact List.mem_cons_of_mem s (ih a hr)

/-- Every action of the outer move loop mutates a non-original path. -/
theorem moveGroups_source (env : MoveEnv) (dest : String) :
    ∀ (m : List (String × List File)) (a : FsAction),
      a ∈ moveGroups env dest m → actionSource a ∈ nonOriginalPaths m := by
  intro m
  induction m with
  | nil => intro a ha; simp [moveGroups] at ha
  | cons g rest ih =>
    intro a ha
    rw [moveGroups] at ha
    have hsplit : nonOriginalPaths (g :: rest) =
        (if g.2.length > 1 then (g.2.drop 1).map (fun f => f.Path) else []) ++
          nonOriginalPaths rest := by
      simp [nonOriginalPaths]
    rw [hsplit]
    rcases List.mem_append.1 ha with hm | hr
    · rw [moveGroup] at hm
      split at hm
      · refine List.mem_append_left _ ?_
        rw [if_pos (by assumption)]
        exact moveMembers_source env dest _ a hm
      · simp at hm
    · exact List.mem_append_right _ (ih a hr)

/-- Every action of the delete loops mutates a non-original path. -/
theorem deleteGroups_source :
    ∀ (m : List (String × List File)) (a : FsAction),
      a ∈ deleteGroups m → actionSource a ∈ nonOriginalPaths m := by
  intro m
  induction m with
  | nil => intro a ha; simp [deleteGroups] at ha
  | cons g rest ih =>
    intro a ha
    rw [deleteGroups] at ha
    have hsplit : nonOriginalPaths (g :: rest) =
        (if g.2.length > 1 then (g.2.drop 1).map (fun f => f.Path) else []) ++
          nonOriginalPaths rest := by
      simp [nonOriginalPaths]
    rw [hsplit]
    rcases List.mem_append.1 ha with hm | hr
    · rw [deleteGroup] at hm
      split at hm
      · refine List.mem_append_left _ ?_
        rw [if_pos (by assumption)]
        obtain ⟨f, hf, rfl⟩ := List.mem_map.1 hm
        exact List.mem_map_of_mem _ hf
      · simp at hm
    · exact List.mem_append_right _ (ih a hr)

/-- The non-original paths are member paths. -/
theorem nonOriginalPaths_subset (m : List (String × List File)) :
    nonOriginalPaths m ⊆ allPaths m := by
  intro p hp
  simp only [nonOriginalPaths, List.mem_flatMap] at hp
  obtain ⟨g, hg, hmem⟩ := hp
  split at hmem
  · obtain ⟨f, hf, rfl⟩ := List.mem_map.1 hmem
    exact List.mem_flatMap.2 ⟨g, hg, List.mem_map_of_mem _ (List.drop_subset 1 g.2 hf)⟩
  · simp at hmem

/-- The original paths are member paths. -/
theorem originalPaths_subset (m : List (String × List File)) :
    originalPaths m ⊆ allPaths m := by
  intro p hp
  simp only [originalPaths, List.mem_filterMap] at hp
  obtain ⟨g, hg, hmem⟩ := hp
  obtain ⟨f, hf, rfl⟩ := Option.map_eq_some.1 hmem
  exact List.mem_flatMap.2 ⟨g, hg, List.mem_map_of_mem _ (List.mem_of_mem_head? hf)⟩

/-- With all member paths distinct, an original path is never a non-original
path. -/
theorem originals_not_nonoriginal :
    ∀ (m : List (String × List File)), (allPaths m).Nodup →
      ∀ p ∈ originalPaths m, p ∉ nonOriginalPaths m := by
  intro m
  induction m with
  | nil => intro _ p hp; simp [originalPaths] at hp
  | cons g rest ih =>
    intro hnd p hp hcontra
    have hall : allPaths (g :: rest) = g.2.map (fun f => f.Path) ++ allPaths rest := by
      simp [allPaths]
    rw [hall] at hnd
    rw [List.nodup_append] at hnd
    obtain ⟨hnd1, hnd2, hdisj⟩ := hnd
    have hsplit : nonOriginalPaths (g :: rest) =
        (if g.2.length > 1 then (g.2.drop 1).map (fun f => f.Path) else []) ++
          nonOriginalPaths rest := by
      simp [nonOriginalPaths]
    rw [hsplit] at hcontra
    cases hg2 : g.2 with
    | nil =>
      have hp2 : p ∈ originalPaths rest := by
        simpa [originalPaths, hg2] using hp
      rcases List.mem_append.1 hcontra with hm | hr
      · rw [hg2] at hm; simp at hm
      · exact ih hnd2 p hp2 hr
    | cons f fs =>
      have hp2 : p = f.Path ∨ p ∈ originalPaths rest := by
        simpa [originalPaths, hg2] using hp
      rcases hp2 with rfl | hp2
      · rcases List.mem_append.1 hcontra with hm | hr
        · rw [hg2] at hm
          split at hm
          · simp only [List.drop_one, List.tail_cons] at hm
            have : f.Path ∈ (f :: fs).map (fun x => x.Path) →
                (fs.map (fun x => x.Path)).Nodup → False := by
              intro _ _
              rw [hg2] at hnd1
              simp only [List.map_cons, List.nodup_cons] at hnd1
              exact hnd1.1 hm
            rw [hg2] at hnd1
            simp only [List.map_cons, List.nodup_cons] at hnd1
            exact hnd1.1 hm
          · simp at hm
        · have hin : f.Path ∈ g.2.map (fun x => x.Path) := by
            rw [hg2]; simp
          exact hdisj hin (nonOriginalPaths_subset rest hr)
      · rcases List.mem_append.1 hcontra with hm | hr
        · have hin2 : p ∈ allPaths rest := originalPaths_subset rest hp2
          have hin1 : p ∈ g.2.map (fun x => x.Path) := by
            rw [hg2] at hm ⊢
            split at hm
            · simp only [List.drop_one, List.tail_cons] at hm
              simp only [List.map_cons, List.mem_cons]
              exact Or.inr hm
            · simp at hm
          exact hdisj hin1 hin2
        · exact ih hnd2 p hp2 hr

/-- C7: move and delete only mutate paths at indices 1 and beyond of groups
with at least 2 members; with distinct member paths, the index-0 original of
every group (in particular the sole member of every singleton group) is
never the source of a rename, copy or removal. -/
theorem actions_spare_originals :
    ∀ (env : MoveEnv) (confirmation destination : String)
      (fileMap : List (String × List File)),
      (∀ a ∈ moveFiles env confirmation destination fileMap,
        actionSource a ∈ nonOriginalPaths fileMap) ∧
      (∀ a ∈ deleteFiles confirmation fileMap,
        actionSource a ∈ nonOriginalPaths fileMap) ∧
      ((allPaths fileMap).Nodup →
        ∀ p ∈ originalPaths fileMap,
          (∀ a ∈ moveFiles env confirmation destination fileMap, actionSource a ≠ p) ∧
          (∀ a ∈ deleteFiles confirmation fileMap, actionSource a ≠ p)) := by
  intro env conf dest m
  have hmv : ∀ a ∈ moveFiles env conf dest m, actionSource a ∈ nonOriginalPaths m := by
    intro a ha
    rw [moveFiles] at ha
    split at ha
    · simp at ha
    · exact moveGroups_source env dest m a ha
  have hdel : ∀ a ∈ deleteFiles conf m, actionSource a ∈ nonOriginalPaths m := by
    intro a ha
    rw [deleteFiles] at ha
    split at ha
    · simp at ha
    · exact deleteGroups_source m a ha
  refine ⟨hmv, hdel, ?_⟩
  intro hnd p hp
  have hnot := originals_not_nonoriginal m hnd p hp
  exact ⟨fun a ha heq => hnot (heq ▸ hmv a ha),
         fun a ha heq => hnot (heq ▸ hdel a ha)⟩

theorem actions_spare_originals_witness :
    (allPaths mapW).Nodup ∧ "a" ∈ originalPaths mapW ∧
    (∀ a ∈ moveFiles envCopyFailW "yes" "dest" mapW, actionSource a ≠ "a") ∧
    (∀ a ∈ deleteFiles "yes" mapW, actionSource a ≠ "a") := by
  have h := (actions_spare_originals envCopyFailW "yes" "dest" mapW).2.2
    (by decide) "a" (by decide)
  exact ⟨by decide, by decide, h.1, h.2⟩

/-- A non-closure event leaves the hash channel flag unchanged. -/
theorem aggStep_hashOpen (s : AggState) (e : AggEvent) (h : e ≠ AggEvent.closeHash) :
    (aggStep s e).hashOpen = s.hashOpen := by
  cases e <;> simp [aggStep] at h ⊢

/-- A non-closure event leaves the error channel flag unchanged. -/
theorem aggStep_errOpen (s : AggState) (e : AggEvent) (h : e ≠ AggEvent.closeErr) :
    (aggStep s e).errOpen = s.errOpen := by
  cases e <;> simp [aggStep] at h ⊢

/-- Folding a schedule free of hash closures preserves the hash flag. -/
theorem foldl_hashOpen :
    ∀ (l : List AggEvent) (s : AggState), AggEvent.closeHash ∉ l →
      (l.foldl aggStep s).hashOpen = s.hashOpen := by
  intro l
  induction l with
  | nil => intro s _; rfl
  | cons e es ih =>
    intro s h
    rw [List.foldl_cons, ih _ (fun hx => h (List.mem_cons_of_mem e hx)),
      aggStep_hashOpen s e (fun hx => h (hx ▸ List.mem_cons_self e es))]

/-- Folding a schedule free of error closures preserves the error flag. -/
theorem foldl_errOpen :
    ∀ (l : List AggEvent) (s : AggState), AggEvent.closeErr ∉ l →
      (l.foldl aggStep s).errOpen = s.errOpen := by
  intro l
  induction l with
  | nil => intro s _; rfl
  | cons e es ih =>
    intro s h
    rw [List.foldl_cons, ih _ (fun hx => h (List.mem_cons_of_mem e hx)),
      aggStep_errOpen s e (fun hx => h (hx ▸ List.mem_cons_self e es))]

/-- Every received failure is recorded: the failure list length grows by the
number of error-stream values in the schedule. -/
theorem foldl_failures_length :
    ∀ (l : List AggEvent) (s : AggState),
      ((l.foldl aggStep s).failures).length = s.failures.length + countErrEvents l := by
  intro l
  induction l with
  | nil => intro s; simp [countErrEvents]
  | cons e es ih =>
    intro s
    rw [List.foldl_cons, ih]
    have : countErrEvents (e :: es) = countErrEvents es +
        (if (match e with | .recvErr _ => true | _ => false) then 1 else 0) := by
      simp [countErrEvents, List.countP_cons]
    rw [this]
    cases e <;> simp [aggStep] <;> try omega

/-- Every received record is counted: scannedCount grows by the number of
success-stream values in the schedule. -/
theorem foldl_scannedCount :
    ∀ (l : List AggEvent) (s : AggState),
      (l.foldl aggStep s).scannedCount = s.scannedCount + countFileEvents l := by
  intro l
  induction l with
  | nil => intro s; simp [countFileEvents]
  | cons e es ih =>
    intro s
    rw [List.foldl_cons, ih]
    have : countFileEvents (e :: es) = countFileEvents es +
        (if (match e with | .recvFile _ => true | _ => false) then 1 else 0) := by
      simp [countFileEvents, List.countP_cons]
    rw [this]
    cases e <;> simp [aggStep] <;> try omega

/-- The one-iteration unfolding of the select loop. -/
theorem aggRun_cons (s : AggState) (e : AggEvent) (es : List AggEvent) :
    aggRun s (e :: es) =
      if (!(aggStep s e).hashOpen && !(aggStep s e).errOpen) = true
      then (aggStep s e, true) else aggRun (aggStep s e) es := rfl

/-- While at least one channel is open, a closure-free schedule segment is
consumed without exiting. -/
theorem aggRun_append_closeFree :
    ∀ (l : List AggEvent) (s : AggState) (rest : List AggEvent),
      (s.hashOpen = true ∨ s.errOpen = true) →
      AggEvent.closeHash ∉ l → AggEvent.closeErr ∉ l →
      aggRun s (l ++ rest) = aggRun (l.foldl aggStep s) rest := by
  intro l
  induction l with
  | nil => intro s rest _ _ _; rfl
  | cons e es ih =>
    intro s rest hopen h1 h2
    have he1 : e ≠ AggEvent.closeHash := fun hx => h1 (hx ▸ List.mem_cons_self e es)
    have he2 : e ≠ AggEvent.closeErr := fun hx => h2 (hx ▸ List.mem_cons_self e es)
    have hopen1 : (aggStep s e).hashOpen = true ∨ (aggStep s e).errOpen = true := by
      rw [aggStep_hashOpen s e he1, aggStep_errOpen s e he2]
      exact hopen
    have hcond : ¬ ((!(aggStep s e).hashOpen && !(aggStep s e).errOpen) = true) := by
      rcases hopen1 with h | h <;> simp [h]
    rw [List.cons_append, aggRun_cons, if_neg hcond, List.foldl_cons]
    exact ih (aggStep s e) rest hopen1
      (fun hx => h1 (List.mem_cons_of_mem e hx))
      (fun hx => h2 (List.mem_cons_of_mem e hx))

/-- If the loop exits, each stream was closed beforehand or during the
schedule. -/
theorem aggRun_exit_closes :
    ∀ (tr : List AggEvent) (s : AggState), (aggRun s tr).2 = true →
      (s.hashOpen = false ∨ AggEvent.closeHash ∈ tr) ∧
      (s.errOpen = false ∨ AggEvent.closeErr ∈ tr) := by
  intro tr
  induction tr with
  | nil => intro s h; simp [aggRun] at h
  | cons e es ih =>
    intro s h
    rw [aggRun_cons] at h
    by_cases hcond : (!(aggStep s e).hashOpen && !(aggStep s e).errOpen) = true
    · have hh2 : (aggStep s e).hashOpen = false := by
        cases hx : (aggStep s e).hashOpen
        · rfl
        · rw [hx] at hcond; simp at hcond
      have herr2 : (aggStep s e).errOpen = false := by
        cases hx : (aggStep s e).errOpen
        · rfl
        · rw [hx] at hcond; simp at hcond
      constructor
      · by_cases he : e = AggEvent.closeHash
        · exact Or.inr (he ▸ List.mem_cons_self e es)
        · exact Or.inl ((aggStep_hashOpen s e he) ▸ hh2)
      · by_cases he : e = AggEvent.closeErr
        · exact Or.inr (he ▸ List.mem_cons_self e es)
        · exact Or.inl ((aggStep_errOpen s e he) ▸ herr2)
    · rw [if_neg hcond] at h
      obtain ⟨ih1, ih2⟩ := ih (aggStep s e) h
      constructor
      · rcases ih1 with hh | hh
        · by_cases he : e = AggEvent.closeHash
          · exact Or.inr (he ▸ List.mem_cons_self e es)
          · exact Or.inl ((aggStep_hashOpen s e he) ▸ hh)
        · exact Or.inr (List.mem_cons_of_mem e hh)
      · rcases ih2 with hh | hh
        · by_cases he : e = AggEvent.closeErr
          · exact Or.inr (he ▸ List.mem_cons_self e es)
          · exact Or.inl ((aggStep_errOpen s e he) ▸ hh)
        · exact Or.inr (List.mem_cons_of_mem e hh)

/-- If each stream is already closed or closes during the schedule, the loop
exits. -/
theorem aggRun_exits_of_closes :
    ∀ (tr : List AggEvent) (s : AggState),
      (s.hashOpen = true ∨ s.errOpen = true) →
      (s.hashOpen = false ∨ AggEvent.closeHash ∈ tr) →
      (s.errOpen = false ∨ AggEvent.closeErr ∈ tr) →
      (aggRun s tr).2 = true := by
  intro tr
  induction tr with
  | nil =>
    intro s hopen h1 h2
    simp only [List.not_mem_nil, or_false] at h1 h2
    rcases hopen with h | h
    · rw [h1] at h; exact absurd h (by simp)
    · rw [h2] at h; exact absurd h (by simp)
  | cons e es ih =>
    intro s hopen h1 h2
    rw [aggRun_cons]
    by_cases hcond : (!(aggStep s e).hashOpen && !(aggStep s e).errOpen) = true
    · rw [if_pos hcond]
    · rw [if_neg hcond]
      have hopen1 : (aggStep s e).hashOpen = true ∨ (aggStep s e).errOpen = true := by
        by_contra hcon
        push_neg at hcon
        obtain ⟨ha, hb⟩ := hcon
        have ha2 : (aggStep s e).hashOpen = false := by
          cases hx : (aggStep s e).hashOpen
          · rfl
          · exact absurd hx ha
        have hb2 : (aggStep s e).errOpen = false := by
          cases hx : (aggStep s e).errOpen
          · rfl
          · exact absurd hx hb
        exact hcond (by simp [ha2, hb2])
      refine ih (aggStep s e) hopen1 ?_ ?_
      · by_cases hh : (aggStep s e).hashOpen = false
        · exact Or.inl hh
        · have hhs : (aggStep s e).hashOpen = true := by
            cases hx : (aggStep s e).hashOpen
            · exact absurd hx hh
            · rfl
          have he : e ≠ AggEvent.closeHash := by
            intro hx
            subst hx
            simp [aggStep] at hhs
          have hs : s.hashOpen = true := (aggStep_hashOpen s e he) ▸ hhs
          rcases h1 with hf | hmem
          · rw [hf] at hs; exact absurd hs (by simp)
          · rcases List.mem_cons.1 hmem with hx | hx
            · exact absurd hx.symm he
            · exact Or.inr hx
      · by_cases hh : (aggStep s e).errOpen = false
        · exact Or.inl hh
        · have hhs : (aggStep s e).errOpen = true := by
            cases hx : (aggStep s e).errOpen
            · exact absurd hx hh
            · rfl
          have he : e ≠ AggEvent.closeErr := by
            intro hx
            subst hx
            simp [aggStep] at hhs
          have hs : s.errOpen = true := (aggStep_errOpen s e he) ▸ hhs
          rcases h2 with hf | hmem
          · rw [hf] at hs; exact absurd hs (by simp)
          · rcases List.mem_cons.1 hmem with hx | hx
            · exact absurd hx.symm he
            · exact Or.inr hx

/-- Full evaluation of a run that closes the hash stream first: every event
before the final closure is processed and the loop exits at the final
closure. -/
theorem aggRun_drain_hash_first :
    ∀ (p q : List AggEvent),
      AggEvent.closeHash ∉ p → AggEvent.closeErr ∉ p →
      AggEvent.closeHash ∉ q → AggEvent.closeErr ∉ q →
      aggRun initAgg (p ++ AggEvent.closeHash :: (q ++ [AggEvent.closeErr])) =
        (aggStep (q.foldl aggStep (aggStep (p.foldl aggStep initAgg)
          AggEvent.closeHash)) AggEvent.closeErr, true) := by
  intro p q hp1 hp2 hq1 hq2
  rw [aggRun_append_closeFree p initAgg _ (Or.inl rfl) hp1 hp2]
  have h1e : (List.foldl aggStep initAgg p).errOpen = true := by
    rw [foldl_errOpen p initAgg hp2]
    rfl
  generalize hgen : List.foldl aggStep initAgg p = s1 at h1e ⊢
  rw [aggRun_cons]
  have h2h : (aggStep s1 AggEvent.closeHash).hashOpen = false := rfl
  have h2e : (aggStep s1 AggEvent.closeHash).errOpen = true := by
    rw [aggStep_errOpen s1 AggEvent.closeHash (by simp)]
    exact h1e
  rw [if_neg (by rw [h2e]; simp)]
  rw [aggRun_append_closeFree q (aggStep s1 AggEvent.closeHash) _ (Or.inr h2e) hq1 hq2]
  have h3h : (List.foldl aggStep (aggStep s1 AggEvent.closeHash) q).hashOpen = false := by
    rw [foldl_hashOpen q _ hq1]
    exact h2h
  generalize hgen2 : List.foldl aggStep (aggStep s1 AggEvent.closeHash) q = s3 at h3h ⊢
  rw [aggRun_cons]
  have h4h : (aggStep s3 AggEvent.closeErr).hashOpen = false := by
    rw [aggStep_hashOpen s3 AggEvent.closeErr (by simp)]
    exact h3h
  have h4e : (aggStep s3 AggEvent.closeErr).errOpen = false := rfl
  rw [if_pos (by rw [h4h, h4e]; rfl)]

/-- Full evaluation of a run that closes the error stream first: every event
before the final closure is processed and the loop exits at the final
closure. -/
theorem aggRun_drain_err_first :
    ∀ (p q : List AggEvent),
      AggEvent.closeHash ∉ p → AggEvent.closeErr ∉ p →
      AggEvent.closeHash ∉ q → AggEvent.closeErr ∉ q →
      aggRun initAgg (p ++ AggEvent.closeErr :: (q ++ [AggEvent.closeHash])) =
        (aggStep (q.foldl aggStep (aggStep (p.foldl aggStep initAgg)
          AggEvent.closeErr)) AggEvent.closeHash, true) := by
  intro p q hp1 hp2 hq1 hq2
  rw [aggRun_append_closeFree p initAgg _ (Or.inl rfl) hp1 hp2]
  have h1h : (List.foldl aggStep initAgg p).hashOpen = true := by
    rw [foldl_hashOpen p initAgg hp1]
    rfl
  generalize hgen : List.foldl aggStep initAgg p = s1 at h1h ⊢
  rw [aggRun_cons]
  have h2e : (aggStep s1 AggEvent.closeErr).errOpen = false := rfl
  have h2h : (aggStep s1 AggEvent.closeErr).hashOpen = true := by
    rw [aggStep_hashOpen s1 AggEvent.closeErr (by simp)]
    exact h1h
  rw [if_neg (by rw [h2h]; simp)]
  rw [aggRun_append_closeFree q (aggStep s1 AggEvent.closeErr) _ (Or.inl h2h) hq1 hq2]
  have h3e : (List.foldl aggStep (aggStep s1 AggEvent.closeErr) q).errOpen = false := by
    rw [foldl_errOpen q _ hq2]
    exact h2e
  generalize hgen2 : List.foldl aggStep (aggStep s1 AggEvent.closeErr) q = s3 at h3e ⊢
  rw [aggRun_cons]
  have h4e : (aggStep s3 AggEvent.closeHash).errOpen = false := by
    rw [aggStep_errOpen s3 AggEvent.closeHash (by simp)]
    exact h3e
  have h4h : (aggStep s3 AggEvent.closeHash).hashOpen = false := rfl
  rw [if_pos (by rw [h4h, h4e]; rfl)]

/-- C1: the select loop exits exactly on the schedules that deliver both
stream closures, in either interleaving order; a closure records no failure
(it is a terminal signal, not an error); and after one stream closes the
loop keeps consuming the other stream — every value delivered before the
second closure is processed, on both closure orders. -/
theorem aggregator_termination :
    ∀ (tr p q : List AggEvent),
      ((aggRun initAgg tr).2 = true ↔
        (AggEvent.closeHash ∈ tr ∧ AggEvent.closeErr ∈ tr)) ∧
      (∀ s : AggState,
        (aggStep s AggEvent.closeHash).failures = s.failures ∧
        (aggStep s AggEvent.closeErr).failures = s.failures) ∧
      (AggEvent.closeHash ∉ p → AggEvent.closeErr ∉ p →
       AggEvent.closeHash ∉ q → AggEvent.closeErr ∉ q →
        (aggRun initAgg (p ++ AggEvent.closeHash :: (q ++ [AggEvent.closeErr]))).2 = true ∧
        ((aggRun initAgg
            (p ++ AggEvent.closeHash :: (q ++ [AggEvent.closeErr]))).1.failures).length =
          countErrEvents p + countErrEvents q ∧
        (aggRun initAgg (p ++ AggEvent.closeErr :: (q ++ [AggEvent.closeHash]))).2 = true ∧
        (aggRun initAgg
            (p ++ AggEvent.closeErr :: (q ++ [AggEvent.closeHash]))).1.scannedCount =
          countFileEvents p + countFileEvents q) := by
  intro tr p q
  refine ⟨?_, fun s => ⟨rfl, rfl⟩, ?_⟩
  · constructor
    · intro h
      obtain ⟨h1, h2⟩ := aggRun_exit_closes tr initAgg h
      refine ⟨?_, ?_⟩
      · rcases h1 with hf | hm
        · exact absurd hf (by simp [initAgg])
        · exact hm
      · rcases h2 with hf | hm
        · exact absurd hf (by simp [initAgg])
        · exact hm
    · intro ⟨h1, h2⟩
      exact aggRun_exits_of_closes tr initAgg (Or.inl rfl) (Or.inr h1) (Or.inr h2)
  · intro hp1 hp2 hq1 hq2
    have run1 := aggRun_drain_hash_first p q hp1 hp2 hq1 hq2
    have run2 := aggRun_drain_err_first p q hp1 hp2 hq1 hq2
    refine ⟨by rw [run1], ?_, by rw [run2], ?_⟩
    · rw [run1]
      have h1 : (aggStep (q.foldl aggStep (aggStep (p.foldl aggStep initAgg)
          AggEvent.closeHash)) AggEvent.closeErr).failures =
          (q.foldl aggStep (aggStep (p.foldl aggStep initAgg)
            AggEvent.closeHash)).failures := rfl
      show (aggStep (q.foldl aggStep (aggStep (p.foldl aggStep initAgg)
          AggEvent.closeHash)) AggEvent.closeErr).failures.length = _
      rw [h1, foldl_failures_length]
      have h2 : (aggStep (p.foldl aggStep initAgg) AggEvent.closeHash).failures =
          (p.foldl aggStep initAgg).failures := rfl
      rw [h2, foldl_failures_length]
      show initAgg.failures.length + countErrEvents p + countErrEvents q = _
      simp [initAgg]
    · rw [run2]
      have h1 : (aggStep (q.foldl aggStep (aggStep (p.foldl aggStep initAgg)
          AggEvent.closeErr)) AggEvent.closeHash).scannedCount =
          (q.foldl aggStep (aggStep (p.foldl aggStep initAgg)
            AggEvent.closeErr)).scannedCount := rfl
      show (aggStep (q.foldl aggStep (aggStep (p.foldl aggStep initAgg)
          AggEvent.closeErr)) AggEvent.closeHash).scannedCount = _
      rw [h1, foldl_scannedCount]
      have h2 : (aggStep (p.foldl aggStep initAgg) AggEvent.closeErr).scannedCount =
          (p.foldl aggStep initAgg).scannedCount := rfl
      rw [h2, foldl_scannedCount]
      show initAgg.scannedCount + countFileEvents p + countFileEvents q = _
      simp [initAgg]

theorem aggregator_termination_witness :
    (aggRun initAgg
      ([AggEvent.recvFile ⟨"a", "h", 1⟩] ++ AggEvent.closeHash ::
        ([AggEvent.recvErr ⟨"b", "E"⟩] ++ [AggEvent.closeErr]))).2 = true ∧
    ((aggRun initAgg
        ([AggEvent.recvFile ⟨"a", "h", 1⟩] ++ AggEvent.closeHash ::
          ([AggEvent.recvErr ⟨"b", "E"⟩] ++ [AggEvent.closeErr]))).1.failures).length =
      countErrEvents [AggEvent.recvFile ⟨"a", "h", 1⟩] +
        countErrEvents [AggEvent.recvErr ⟨"b", "E"⟩] := by
  have h := (aggregator_termination []
      [AggEvent.recvFile ⟨"a", "h", 1⟩] [AggEvent.recvErr ⟨"b", "E"⟩]).2.2
    (by decide) (by decide) (by decide) (by decide)
  exact ⟨h.1, h.2.1⟩

/-- Replacing one list element changes a countP tally by the difference of
the predicate values at the old and new element. -/
theorem countP_set_eq {α : Type} (p : α → Bool) :
    ∀ (l : List α) (i : Nat) (x a : α), l[i]? = some x →
      (l.set i a).countP p + (if p x then 1 else 0) =
        l.countP p + (if p a then 1 else 0) := by
  intro l
  induction l with
  | nil => intro i x a h; simp at h
  | cons y ys ih =>
    intro i x a h
    cases i with
    | zero =>
      simp only [List.getElem?_cons_zero, Option.some.injEq] at h
      subst h
      show (a :: ys).countP p + (if p y then 1 else 0) =
        (y :: ys).countP p + (if p a then 1 else 0)
      rw [List.countP_cons, List.countP_cons]
      omega
    | succ i =>
      simp only [List.getElem?_cons_succ] at h
      show (y :: ys.set i a).countP p + (if p x then 1 else 0) =
        (y :: ys).countP p + (if p a then 1 else 0)
      rw [List.countP_cons, List.countP_cons]
      have := ih i x a h
      omega

/-- The suffixes of the two task programs, enumerated. -/
theorem wf_rem_cases (rem : List TaskAction)
    (h : rem ∈ (taskProg true).tails ∨ rem ∈ (taskProg false).tails) :
    rem = taskProg true ∨ rem = taskProg false ∨
    rem = [TaskAction.openF, TaskAction.emit, TaskAction.release] ∨
    rem = [TaskAction.openF, TaskAction.hashF, TaskAction.emit, TaskAction.release] ∨
    rem = [TaskAction.hashF, TaskAction.emit, TaskAction.release] ∨
    rem = [TaskAction.emit, TaskAction.release] ∨
    rem = [TaskAction.release] ∨
    rem = [] := by
  rcases h with h | h <;>
    simp only [taskProg, List.tails_cons, List.tails, List.mem_cons, List.mem_singleton,
      List.not_mem_nil, or_false] at h ⊢ <;> tauto

/-- One scheduler step preserves the governor invariant. -/
theorem sysStep_inv (C : Nat) (s : SysState) (i : Nat) (h : SysInv C s) :
    SysInv C (sysStep C s i) := by
  obtain ⟨hslots, hcap, hwf⟩ := h
  rw [inFlight] at hslots
  cases hx : s.tasks[i]? with
  | none =>
    have hstep : sysStep C s i = s := by simp only [sysStep, hx]
    rw [hstep]
    exact ⟨by rw [inFlight]; exact hslots, hcap, hwf⟩
  | some rem =>
    have hmem : rem ∈ s.tasks := List.getElem?_mem hx
    have hwfset : ∀ (rest : List TaskAction),
        (rest ∈ (taskProg true).tails ∨ rest ∈ (taskProg false).tails) →
        ∀ rem2 ∈ s.tasks.set i rest,
          rem2 ∈ (taskProg true).tails ∨ rem2 ∈ (taskProg false).tails := by
      intro rest hrest rem2 hrem2
      rcases List.mem_or_eq_of_mem_set hrem2 with hold | rfl
      · exact hwf rem2 hold
      · exact hrest
    rcases wf_rem_cases rem (hwf rem hmem) with hr | hr | hr | hr | hr | hr | hr | hr
    · -- full error-path program: acquire at the head
      subst hr
      by_cases hC : s.slots < C
      · have hstep : sysStep C s i =
            ⟨s.tasks.set i [TaskAction.openF, TaskAction.emit, TaskAction.release],
              s.slots + 1⟩ := by
          simp only [sysStep, hx, taskProg, if_pos hC]
        rw [hstep]
        have hcount := countP_set_eq inFlightTask s.tasks i (taskProg true)
          [TaskAction.openF, TaskAction.emit, TaskAction.release] hx
        rw [show inFlightTask (taskProg true) = false from rfl,
          show inFlightTask [TaskAction.openF, TaskAction.emit, TaskAction.release] =
            true from rfl] at hcount
        simp only [if_pos, if_neg, Bool.false_eq_true, if_false, if_true] at hcount
        refine ⟨?_, ?_, hwfset _ (Or.inl (by decide))⟩
        · show s.slots + 1 = inFlight (s.tasks.set i
            [TaskAction.openF, TaskAction.emit, TaskAction.release])
          rw [inFlight]
          omega
        · show s.slots + 1 ≤ C
          omega
      · have hstep : sysStep C s i = s := by
          simp only [sysStep, hx, taskProg, if_neg hC]
        rw [hstep]
        exact ⟨by rw [inFlight]; exact hslots, hcap, hwf⟩
    · -- full success-path program: acquire at the head
      subst hr
      by_cases hC : s.slots < C
      · have hstep : sysStep C s i =
            ⟨s.tasks.set i
              [TaskAction.openF, TaskAction.hashF, TaskAction.emit, TaskAction.release],
              s.slots + 1⟩ := by
          simp only [sysStep, hx, taskProg, if_pos hC]
        rw [hstep]
        have hcount := countP_set_eq inFlightTask s.tasks i (taskProg false)
          [TaskAction.openF, TaskAction.hashF, TaskAction.emit, TaskAction.release] hx
        rw [show inFlightTask (taskProg false) = false from rfl,
          show inFlightTask [TaskAction.openF, TaskAction.hashF, TaskAction.emit,
            TaskAction.release] = true from rfl] at hcount
        simp only [if_pos, if_neg, Bool.false_eq_true, if_false, if_true] at hcount
        refine ⟨?_, ?_, hwfset _ (Or.inr (by decide))⟩
        · show s.slots + 1 = inFlight (s.tasks.set i
            [TaskAction.openF, TaskAction.hashF, TaskAction.emit, TaskAction.release])
          rw [inFlight]
          omega
        · show s.slots + 1 ≤ C
          omega
      · have hstep : sysStep C s i = s := by
          simp only [sysStep, hx, taskProg, if_neg hC]
        rw [hstep]
        exact ⟨by rw [inFlight]; exact hslots, hcap, hwf⟩
    · -- mid-flight, error path, after the open call
      subst hr
      have hstep : sysStep C s i =
          ⟨s.tasks.set i [TaskAction.emit, TaskAction.release], s.slots⟩ := by
        simp only [sysStep, hx]
      rw [hstep]
      have hcount := countP_set_eq inFlightTask s.tasks i
        [TaskAction.openF, TaskAction.emit, TaskAction.release]
        [TaskAction.emit, TaskAction.release] hx
      rw [show inFlightTask [TaskAction.openF, TaskAction.emit, TaskAction.release] =
          true from rfl,
        show inFlightTask [TaskAction.emit, TaskAction.release] = true from rfl] at hcount
      simp only [if_true] at hcount
      refine ⟨?_, hcap, hwfset _ (Or.inl (by decide))⟩
      show s.slots = inFlight (s.tasks.set i [TaskAction.emit, TaskAction.release])
      rw [inFlight]
      omega
    · -- mid-flight, success path, after the open call
      subst hr
      have hstep : sysStep C s i =
          ⟨s.tasks.set i [TaskAction.hashF, TaskAction.emit, TaskAction.release],
            s.slots⟩ := by
        simp only [sysStep, hx]
      rw [hstep]
      have hcount := countP_set_eq inFlightTask s.tasks i
        [TaskAction.openF, TaskAction.hashF, TaskAction.emit, TaskAction.release]
        [TaskAction.hashF, TaskAction.emit, TaskAction.release] hx
      rw [show inFlightTask [TaskAction.openF, TaskAction.hashF, TaskAction.emit,
          TaskAction.release] = true from rfl,
        show inFlightTask [TaskAction.hashF, TaskAction.emit, TaskAction.release] =
          true from rfl] at hcount
      simp only [if_true] at hcount
      refine ⟨?_, hcap, hwfset _ (Or.inr (by decide))⟩
      show s.slots = inFlight (s.tasks.set i
        [TaskAction.hashF, TaskAction.emit, TaskAction.release])
      rw [inFlight]
      omega
    · -- mid-flight, hashing
      subst hr
      have hstep : sysStep C s i =
          ⟨s.tasks.set i [TaskAction.emit, TaskAction.release], s.slots⟩ := by
        simp only [sysStep, hx]
      rw [hstep]
      have hcount := countP_set_eq inFlightTask s.tasks i
        [TaskAction.hashF, TaskAction.emit, TaskAction.release]
        [TaskAction.emit, TaskAction.release] hx
      rw [show inFlightTask [TaskAction.hashF, TaskAction.emit, TaskAction.release] =
          true from rfl,
        show inFlightTask [TaskAction.emit, TaskAction.release] = true from rfl] at hcount
      simp only [if_true] at hcount
      refine ⟨?_, hcap, hwfset _ (Or.inl (by decide))⟩
      show s.slots = inFlight (s.tasks.set i [TaskAction.emit, TaskAction.release])
      rw [inFlight]
      omega
    · -- mid-flight, emitting its one message
      subst hr
      have hstep : sysStep C s i =
          ⟨s.tasks.set i [TaskAction.release], s.slots⟩ := by
        simp only [sysStep, hx]
      rw [hstep]
      have hcount := countP_set_eq inFlightTask s.tasks i
        [TaskAction.emit, TaskAction.release] [TaskAction.release] hx
      rw [show inFlightTask [TaskAction.emit, TaskAction.release] = true from rfl,
        show inFlightTask [TaskAction.release] = true from rfl] at hcount
      simp only [if_true] at hcount
      refine ⟨?_, hcap, hwfset _ (Or.inl (by decide))⟩
      show s.slots = inFlight (s.tasks.set i [TaskAction.release])
      rw [inFlight]
      omega
    · -- the deferred release: the slot is returned
      subst hr
      have hstep : sysStep C s i = ⟨s.tasks.set i [], s.slots - 1⟩ := by
        simp only [sysStep, hx]
      rw [hstep]
      have hcount := countP_set_eq inFlightTask s.tasks i [TaskAction.release] [] hx
      rw [show inFlightTask [TaskAction.release] = true from rfl,
        show inFlightTask ([] : List TaskAction) = false from rfl] at hcount
      simp only [if_pos, if_neg, Bool.false_eq_true, if_false, if_true] at hcount
      refine ⟨?_, ?_, hwfset _ (Or.inl (by decide))⟩
      · show s.slots - 1 = inFlight (s.tasks.set i [])
        rw [inFlight]
        omega
      · show s.slots - 1 ≤ C
        omega
    · -- a finished task
      subst hr
      have hstep : sysStep C s i = s := by simp only [sysStep, hx]
      rw [hstep]
      exact ⟨by rw [inFlight]; exact hslots, hcap, hwf⟩

/-- Every schedule preserves the governor invariant. -/
theorem sysRun_inv (C : Nat) :
    ∀ (sched : List Nat) (s : SysState), SysInv C s → SysInv C (sysRun C s sched) := by
  intro sched
  induction sched with
  | nil => intro s h; exact h
  | cons i rest ih =>
    intro s h
    show SysInv C (List.foldl (sysStep C) s (i :: rest))
    rw [List.foldl_cons]
    exact ih (sysStep C s i) (sysStep_inv C s i h)

/-- The initial state satisfies the governor invariant. -/
theorem initSys_inv (C : Nat) (failures : List Bool) : SysInv C (initSys failures) := by
  refine ⟨?_, Nat.zero_le C, ?_⟩
  · show 0 = inFlight (failures.map taskProg)
    rw [inFlight]
    symm
    rw [List.countP_eq_zero]
    intro rem hrem
    obtain ⟨b, _, rfl⟩ := List.mem_map.1 hrem
    cases b
    · decide
    · decide
  · intro rem hrem
    obtain ⟨b, _, rfl⟩ := List.mem_map.1 hrem
    cases b
    · exact Or.inr (by decide)
    · exact Or.inl (by decide)

/-- C2: under every schedule of every set of dispatched tasks, at most C
hashing operations are mid-flight at any instant for governor capacity C;
and each task program acquires exactly one slot, as its very first action
(before opening or hashing), and releases exactly one slot, as its very last
action, on the success path and the failure path alike. -/
theorem governor_capacity_bound :
    ∀ (C : Nat) (failures : List Bool) (sched : List Nat),
      inFlight ((sysRun C (initSys failures) sched).tasks) ≤ C ∧
      ∀ fails : Bool,
        (taskProg fails).count TaskAction.acquire = 1 ∧
        (taskProg fails).count TaskAction.release = 1 ∧
        (taskProg fails).head? = some TaskAction.acquire ∧
        (taskProg fails).getLast? = some TaskAction.release := by
  intro C failures sched
  obtain ⟨h1, h2, _⟩ := sysRun_inv C sched (initSys failures) (initSys_inv C failures)
  constructor
  · rw [← h1]
    exact h2
  · intro fails
    cases fails
    · exact ⟨by decide, by decide, by decide, by decide⟩
    · exact ⟨by decide, by decide, by decide, by decide⟩

end DupFinder
